import Mathlib

/-!
Verification of the form-js-playground core: a shallow embedding of the
matrix ⇄ bundle codec (`src/core/behaviors.ts`), the schema enricher
(`src/core/enrich.ts`), the field extractor (`src/core/schema.ts`), the
behavior-matrix completion and overlay helpers (`BehaviorMatrix.tsx`) and
the derived read-only resolver (`App.tsx`), together with proofs of the
specification's laws about them.

JavaScript objects used as string-keyed maps are modelled as association
lists in insertion order: property read is first-match lookup, property
write updates the first matching entry in place or appends a new entry at
the end, exactly as JS preserves key insertion order.
-/

/-- `ActionContext` from `src/core/types.ts`: `'view' | 'create' | 'update'`. -/
inductive ActionContext where
  | view
  | create
  | update
deriving DecidableEq, Repr

/-- `CellMode` from `src/core/types.ts`: `'hidden' | 'readonly' | 'editable'`. -/
inductive CellMode where
  | hidden
  | readonly
  | editable
deriving DecidableEq, Repr

/-- `FieldCell` from `src/core/types.ts`: `{ mode: CellMode; required: boolean }`. -/
structure FieldCell where
  mode : CellMode
  required : Bool
deriving DecidableEq, Repr

/-- `TaskFieldBehavior` from `src/core/types.ts`; `visible` and `required`
are optional in the TS interface, hence `Option Bool`. -/
structure TaskFieldBehavior where
  field_name : String
  action_context : ActionContext
  visible : Option Bool
  required : Option Bool
deriving DecidableEq, Repr

/-- `BehaviorBundle` from `src/core/types.ts`. -/
structure BehaviorBundle where
  state : String
  action : ActionContext
  rows : List TaskFieldBehavior
deriving DecidableEq, Repr

/-- First-match lookup in an association list: JS property read. -/
def alookup {κ α : Type} [DecidableEq κ] : List (κ × α) → κ → Option α
  | [], _ => none
  | (k, v) :: rest, key => if k = key then some v else alookup rest key

/-- JS property write: replace the value of the first entry with this key,
keeping its position; append a fresh entry at the end if the key is absent. -/
def aset {κ α : Type} [DecidableEq κ] : List (κ × α) → κ → α → List (κ × α)
  | [], key, v => [(key, v)]
  | (k, w) :: rest, key, v =>
      if k = key then (k, v) :: rest else (k, w) :: aset rest key v

/-- The keys of an association list, in order. -/
def keysOf {κ α : Type} (l : List (κ × α)) : List κ := l.map Prod.fst

/-- `BehaviorMatrixValue` inner level: `state -> FieldCell`. -/
abbrev StateRow := List (String × FieldCell)

/-- `BehaviorMatrixValue` from `src/core/types.ts`:
`matrix[fieldKey][state] = { mode, required }`. -/
abbrev BehaviorMatrixValue := List (String × StateRow)

/-- Two-level matrix read: `matrix[fieldKey]?.[state]`. -/
def mlookup (m : BehaviorMatrixValue) (f s : String) : Option FieldCell :=
  match alookup m f with
  | some row => alookup row s
  | none => none

theorem alookup_aset_self {κ α : Type} [DecidableEq κ]
    (l : List (κ × α)) (k : κ) (v : α) : alookup (aset l k v) k = some v := by
  induction l with
  | nil => simp [aset, alookup]
  | cons p rest ih =>
      obtain ⟨k0, w⟩ := p
      by_cases h : k0 = k
      · simp [aset, h, alookup]
      · simp [aset, h, alookup, ih]

theorem alookup_aset_ne {κ α : Type} [DecidableEq κ]
    (l : List (κ × α)) (k k' : κ) (v : α) (h : k' ≠ k) :
    alookup (aset l k v) k' = alookup l k' := by
  induction l with
  | nil => simp [aset, alookup, Ne.symm h]
  | cons p rest ih =>
      obtain ⟨k0, w⟩ := p
      by_cases h0 : k0 = k
      · subst h0
        simp [aset, alookup, Ne.symm h]
      · simp only [aset, if_neg h0]
        by_cases h1 : k0 = k'
        · simp [alookup, h1]
        · simp [alookup, h1, ih]

theorem aset_eq_of_alookup {κ α : Type} [DecidableEq κ]
    (l : List (κ × α)) (k : κ) (v : α) (h : alookup l k = some v) :
    aset l k v = l := by
  induction l with
  | nil => simp [alookup] at h
  | cons p rest ih =>
      obtain ⟨k0, w⟩ := p
      by_cases h0 : k0 = k
      · subst h0
        simp [alookup] at h
        simp [aset, h]
      · simp [alookup, h0] at h
        simp [aset, h0, ih h]

theorem alookup_none_of_not_mem_keys {κ α : Type} [DecidableEq κ]
    (l : List (κ × α)) (k : κ) (h : k ∉ keysOf l) : alookup l k = none := by
  induction l with
  | nil => simp [alookup]
  | cons p rest ih =>
      obtain ⟨k0, w⟩ := p
      simp only [keysOf, List.map_cons, List.mem_cons, not_or] at h
      have h1 : ¬ (k0 = k) := fun hk => h.1 hk.symm
      simp [alookup, h1, ih h.2]

/-! ## Matrix ⇄ Bundle codec (`src/core/behaviors.ts`) -/

/-- The row pushed by `bundlesFromMatrix` for one matrix cell:
`visible = mode !== 'hidden'`, `action_context = isEditable ? 'update' : 'view'`,
`required = !!cell.required && isEditable`. -/
def cellToRow (fieldKey : String) (cell : FieldCell) : TaskFieldBehavior :=
  let isEditable := cell.mode = CellMode.editable
  { field_name := fieldKey
    action_context := if isEditable then ActionContext.update else ActionContext.view
    visible := some (cell.mode ≠ CellMode.hidden)
    required := some (cell.required && decide isEditable) }

/-- The inner loop of `bundlesFromMatrix` for one state: walks the matrix
entries in order, skips fields with no cell for this state (`if (!cell)
continue`), collects the rows and the `anyEditable` flag. -/
def stateRows (matrix : BehaviorMatrixValue) (state : String) :
    List TaskFieldBehavior × Bool :=
  match matrix with
  | [] => ([], false)
  | (fieldKey, byState) :: rest =>
      let acc := stateRows rest state
      match alookup byState state with
      | none => acc
      | some cell =>
          (cellToRow fieldKey cell :: acc.1,
           (decide (cell.mode = CellMode.editable) || acc.2))

/-- `bundlesFromMatrix` from `src/core/behaviors.ts`: one bundle per state,
bundle action `'update'` when any cell for the state is editable, else
`'view'`. -/
def bundlesFromMatrix (matrix : BehaviorMatrixValue) (allStates : List String) :
    List BehaviorBundle :=
  allStates.map fun state =>
    let rs := stateRows matrix state
    { state := state
      action := if rs.2 then ActionContext.update else ActionContext.view
      rows := rs.1 }

/-- The cell `matrixFromBundles` derives from one row:
`mode = 'hidden'` if `visible === false`, else `'editable'` if
`action_context` is `'update'` or `'create'`, else `'readonly'`;
`required = mode === 'editable' ? !!row.required : false`. -/
def rowToCell (row : TaskFieldBehavior) : FieldCell :=
  let mode : CellMode :=
    if row.visible = some false then CellMode.hidden
    else if row.action_context = ActionContext.update ∨
            row.action_context = ActionContext.create then CellMode.editable
    else CellMode.readonly
  { mode := mode
    required := if mode = CellMode.editable then row.required.getD false else false }

/-- One assignment `m[key] = m[key] || {}; m[key][state] = cell` of
`matrixFromBundles`. -/
def writeCell (m : BehaviorMatrixValue) (f s : String) (c : FieldCell) :
    BehaviorMatrixValue :=
  aset m f (aset ((alookup m f).getD []) s c)

/-- `matrixFromBundles` from `src/core/behaviors.ts`: fold every row of
every bundle into an initially empty matrix. -/
def matrixFromBundles (bundles : List BehaviorBundle) : BehaviorMatrixValue :=
  bundles.foldl
    (fun m b => b.rows.foldl (fun m row => writeCell m row.field_name b.state (rowToCell row)) m)
    []

theorem alookup_append {κ α : Type} [DecidableEq κ]
    (a b : List (κ × α)) (k : κ) :
    alookup (a ++ b) k =
      match alookup a k with
      | some v => some v
      | none => alookup b k := by
  induction a with
  | nil => simp [alookup]
  | cons p rest ih =>
      obtain ⟨k0, w⟩ := p
      by_cases h : k0 = k
      · simp [alookup, h]
      · simp [alookup, h, ih]

theorem mlookup_writeCell (m : BehaviorMatrixValue) (f s f' s' : String)
    (c : FieldCell) :
    mlookup (writeCell m f s c) f' s' =
      if f' = f ∧ s' = s then some c else mlookup m f' s' := by
  by_cases hf : f' = f
  · subst hf
    have h1 : alookup (aset m f' (aset ((alookup m f').getD []) s c)) f' =
        some (aset ((alookup m f').getD []) s c) := alookup_aset_self ..
    by_cases hs : s' = s
    · subst hs
      simp [mlookup, writeCell, h1, alookup_aset_self]
    · simp only [mlookup, writeCell, h1]
      rw [alookup_aset_ne _ _ _ _ hs]
      simp only [hs, and_false, if_false]
      cases h : alookup m f' with
      | some row => simp [h]
      | none => simp [h, alookup]
  · simp only [mlookup, writeCell]
    rw [alookup_aset_ne _ _ _ _ hf]
    simp [hf]

/-- The inner row loop of `matrixFromBundles`, for one bundle of state `st`. -/
def applyRows (m : BehaviorMatrixValue) (st : String)
    (rs : List TaskFieldBehavior) : BehaviorMatrixValue :=
  rs.foldl (fun m row => writeCell m row.field_name st (rowToCell row)) m

theorem matrixFromBundles_eq_applyRows (bundles : List BehaviorBundle) :
    matrixFromBundles bundles =
      bundles.foldl (fun m b => applyRows m b.state b.rows) [] := rfl

/-- The `(field_name, state) ↦ row` write sequence a bundle performs, in
iteration order. -/
def bundleWrites (b : BehaviorBundle) : List ((String × String) × TaskFieldBehavior) :=
  b.rows.map fun row => ((row.field_name, b.state), row)

/-- All `(field_name, state) ↦ row` writes of `matrixFromBundles`, in
iteration order: bundles in order, rows within a bundle in order. -/
def allWrites (bundles : List BehaviorBundle) :
    List ((String × String) × TaskFieldBehavior) :=
  (bundles.map bundleWrites).flatten

/-- The last row written for a `(field, state)` pair, if any. -/
def lastRowFor (bundles : List BehaviorBundle) (f s : String) :
    Option TaskFieldBehavior :=
  alookup (allWrites bundles).reverse (f, s)

theorem mlookup_foldWrites
    (ws : List ((String × String) × TaskFieldBehavior))
    (m0 : BehaviorMatrixValue) (f s : String) :
    mlookup (ws.foldl (fun m p => writeCell m p.1.1 p.1.2 (rowToCell p.2)) m0) f s =
      match alookup ws.reverse (f, s) with
      | some row => some (rowToCell row)
      | none => mlookup m0 f s := by
  induction ws generalizing m0 with
  | nil => simp [alookup]
  | cons p rest ih =>
      obtain ⟨⟨pf, ps⟩, prow⟩ := p
      rw [List.foldl_cons, ih, List.reverse_cons, alookup_append]
      cases h : alookup rest.reverse (f, s) with
      | some row => rfl
      | none =>
          simp only [mlookup_writeCell, alookup]
          by_cases hk : (pf, ps) = (f, s)
          · obtain ⟨hf, hs⟩ := Prod.mk.injEq .. ▸ hk
            simp [hf, hs]
          · have hk2 : ¬ (f = pf ∧ s = ps) := by
              intro hc
              exact hk (by simp [hc.1, hc.2])
            simp [hk, hk2]

theorem applyRows_eq_foldWrites (m : BehaviorMatrixValue) (b : BehaviorBundle) :
    applyRows m b.state b.rows =
      (bundleWrites b).foldl (fun m p => writeCell m p.1.1 p.1.2 (rowToCell p.2)) m := by
  unfold applyRows bundleWrites
  rw [List.foldl_map]

theorem matrixFromBundles_eq_foldWrites (bundles : List BehaviorBundle) :
    matrixFromBundles bundles =
      (allWrites bundles).foldl (fun m p => writeCell m p.1.1 p.1.2 (rowToCell p.2)) [] := by
  rw [matrixFromBundles_eq_applyRows]
  unfold allWrites
  generalize hinit : ([] : BehaviorMatrixValue) = m0
  clear hinit
  induction bundles generalizing m0 with
  | nil => simp
  | cons b rest ih =>
      simp only [List.map_cons, List.flatten_cons, List.foldl_cons, List.foldl_append]
      rw [applyRows_eq_foldWrites, ih]

@[simp] theorem keysOf_nil {κ α : Type} : keysOf ([] : List (κ × α)) = [] := rfl

@[simp] theorem keysOf_cons {κ α : Type} (p : κ × α) (l : List (κ × α)) :
    keysOf (p :: l) = p.1 :: keysOf l := rfl

theorem alookup_mem {κ α : Type} [DecidableEq κ]
    (l : List (κ × α)) (k : κ) (v : α) (h : alookup l k = some v) : (k, v) ∈ l := by
  induction l with
  | nil => simp [alookup] at h
  | cons p rest ih =>
      obtain ⟨k0, w⟩ := p
      by_cases h0 : k0 = k
      · subst h0
        simp [alookup] at h
        simp [h]
      · simp [alookup, h0] at h
        exact List.mem_cons_of_mem _ (ih h)

theorem rowToCell_required_imp_editable (row : TaskFieldBehavior)
    (h : (rowToCell row).required = true) :
    (rowToCell row).mode = CellMode.editable := by
  unfold rowToCell at h ⊢
  by_cases h1 : row.visible = some false
  · simp [h1] at h
  · by_cases h2 : row.action_context = ActionContext.update ∨
        row.action_context = ActionContext.create
    · simp [h1, h2]
    · simp [h1, h2] at h

/-- **C10**: duplicate-row resolution in the inverse codec: the cell at
`(f, s)` comes from the last row written for that pair (bundles in order,
rows within a bundle in order), and every resulting cell satisfies
`required = true → mode = editable`. -/
theorem matrixFromBundles_last_write_wins (bundles : List BehaviorBundle)
    (f s : String) :
    mlookup (matrixFromBundles bundles) f s = (lastRowFor bundles f s).map rowToCell
    ∧ (∀ c, mlookup (matrixFromBundles bundles) f s = some c →
        c.required = true → c.mode = CellMode.editable) := by
  have hchar : mlookup (matrixFromBundles bundles) f s =
      (lastRowFor bundles f s).map rowToCell := by
    rw [matrixFromBundles_eq_foldWrites, mlookup_foldWrites]
    unfold lastRowFor
    cases h : alookup (allWrites bundles).reverse (f, s) with
    | some row => rfl
    | none => rfl
  refine ⟨hchar, ?_⟩
  intro c hc hreq
  rw [hchar] at hc
  cases h : lastRowFor bundles f s with
  | none => simp [h] at hc
  | some row =>
      rw [h] at hc
      have hc2 : rowToCell row = c := by simpa using hc
      subst hc2
      exact rowToCell_required_imp_editable row hreq

/-- A bundle list writing the pair `("f", "s")` twice, first as a view row
then as an update row. -/
def dupBundles : List BehaviorBundle :=
  [⟨"s", ActionContext.view, [⟨"f", ActionContext.view, some true, some true⟩]⟩,
   ⟨"s", ActionContext.update, [⟨"f", ActionContext.update, some true, some true⟩]⟩]

/-- Witness for C10: the second (later) row wins, and the invariant
instantiates at the resulting editable cell. -/
theorem matrixFromBundles_last_write_wins_witness :
    mlookup (matrixFromBundles dupBundles) "f" "s" =
      (lastRowFor dupBundles "f" "s").map rowToCell
    ∧ (⟨CellMode.editable, true⟩ : FieldCell).mode = CellMode.editable :=
  ⟨(matrixFromBundles_last_write_wins dupBundles "f" "s").1,
   (matrixFromBundles_last_write_wins dupBundles "f" "s").2
     ⟨CellMode.editable, true⟩ (by decide) rfl⟩

/-- What one full round trip does to a cell: the mode survives unchanged,
`required` survives only on editable cells. -/
def roundCell (c : FieldCell) : FieldCell :=
  ⟨c.mode, c.required && decide (c.mode = CellMode.editable)⟩

theorem rowToCell_cellToRow (f : String) (c : FieldCell) :
    rowToCell (cellToRow f c) = roundCell c := by
  obtain ⟨mode, required⟩ := c
  cases mode <;> cases required <;> rfl

theorem roundCell_eq_self (c : FieldCell)
    (h : c.mode = CellMode.editable ∨ c.required = false) : roundCell c = c := by
  obtain ⟨mode, required⟩ := c
  rcases h with h | h
  · simp at h
    subst h
    simp [roundCell]
  · simp at h
    subst h
    simp [roundCell]

theorem applyRows_nil (m : BehaviorMatrixValue) (st : String) :
    applyRows m st [] = m := rfl

theorem applyRows_cons (m : BehaviorMatrixValue) (st : String)
    (r : TaskFieldBehavior) (rs : List TaskFieldBehavior) :
    applyRows m st (r :: rs) = applyRows (writeCell m r.field_name st (rowToCell r)) st rs := rfl

theorem stateRows_nil (s : String) : stateRows [] s = ([], false) := rfl

theorem stateRows_cons (k : String) (row : StateRow) (rest : BehaviorMatrixValue)
    (s : String) :
    stateRows ((k, row) :: rest) s =
      match alookup row s with
      | none => stateRows rest s
      | some cell =>
          (cellToRow k cell :: (stateRows rest s).1,
           (decide (cell.mode = CellMode.editable) || (stateRows rest s).2)) := rfl

/-- The cell `matrixFromBundles` writes back for one state of
`bundlesFromMatrix`, looked up at an arbitrary pair, assuming the matrix
has no duplicate field keys (JS objects cannot). -/
theorem mlookup_applyState (M : BehaviorMatrixValue) (hM : (keysOf M).Nodup)
    (s0 : String) (m0 : BehaviorMatrixValue) (f s : String) :
    mlookup (applyRows m0 s0 (stateRows M s0).1) f s =
      if s = s0 ∧ (mlookup M f s0).isSome then (mlookup M f s0).map roundCell
      else mlookup m0 f s := by
  induction M generalizing m0 with
  | nil => simp [stateRows_nil, applyRows_nil, mlookup, alookup]
  | cons p rest ih =>
      obtain ⟨k, row⟩ := p
      rw [keysOf_cons, List.nodup_cons] at hM
      have hk : k ∉ keysOf rest := hM.1
      have hrest := hM.2
      cases hcell : alookup row s0 with
      | none =>
          have hsr : (stateRows ((k, row) :: rest) s0).1 = (stateRows rest s0).1 := by
            rw [stateRows_cons, hcell]
          rw [hsr, ih hrest]
          by_cases hf : k = f
          · subst hf
            have h1 : mlookup ((k, row) :: rest) k s0 = none := by
              simp [mlookup, alookup, hcell]
            have h2 : mlookup rest k s0 = none := by
              simp [mlookup, alookup_none_of_not_mem_keys rest k hk]
            rw [h1, h2]
          · have h3 : mlookup ((k, row) :: rest) f s0 = mlookup rest f s0 := by
              simp [mlookup, alookup, hf]
            rw [h3]
      | some cell =>
          have hsr : (stateRows ((k, row) :: rest) s0).1 =
              cellToRow k cell :: (stateRows rest s0).1 := by
            rw [stateRows_cons, hcell]
          rw [hsr, applyRows_cons,
            show (cellToRow k cell).field_name = k from rfl, rowToCell_cellToRow,
            ih hrest]
          by_cases hf : k = f
          · subst hf
            have h1 : mlookup ((k, row) :: rest) k s0 = some cell := by
              simp [mlookup, alookup, hcell]
            have h2 : mlookup rest k s0 = none := by
              simp [mlookup, alookup_none_of_not_mem_keys rest k hk]
            rw [h1, h2]
            by_cases hs : s = s0 <;> simp [hs, mlookup_writeCell]
          · have h3 : mlookup ((k, row) :: rest) f s0 = mlookup rest f s0 := by
              simp [mlookup, alookup, hf]
            have hfk : ¬ (f = k) := fun hc => hf hc.symm
            have h4 : mlookup (writeCell m0 k s0 (roundCell cell)) f s = mlookup m0 f s := by
              rw [mlookup_writeCell]
              simp [hfk]
            rw [h3, h4]

/-- The fold `matrixFromBundles` performs, with an explicit accumulator. -/
def bundlesFold (bundles : List BehaviorBundle) (m0 : BehaviorMatrixValue) :
    BehaviorMatrixValue :=
  bundles.foldl (fun m b => applyRows m b.state b.rows) m0

theorem matrixFromBundles_eq_bundlesFold (bundles : List BehaviorBundle) :
    matrixFromBundles bundles = bundlesFold bundles [] := rfl

theorem bundlesFold_cons_mk (st : String) (a : ActionContext)
    (rs : List TaskFieldBehavior) (bs : List BehaviorBundle) (m0 : BehaviorMatrixValue) :
    bundlesFold ({ state := st, action := a, rows := rs } :: bs) m0 =
      bundlesFold bs (applyRows m0 st rs) := rfl

theorem bundlesFromMatrix_cons (M : BehaviorMatrixValue) (s0 : String)
    (rest : List String) :
    bundlesFromMatrix M (s0 :: rest) =
      { state := s0
        action := if (stateRows M s0).2 then ActionContext.update else ActionContext.view
        rows := (stateRows M s0).1 } :: bundlesFromMatrix M rest := rfl

theorem mlookup_bundlesFold (M : BehaviorMatrixValue) (hM : (keysOf M).Nodup)
    (S : List String) (m0 : BehaviorMatrixValue) (f s : String) :
    mlookup (bundlesFold (bundlesFromMatrix M S) m0) f s =
      if s ∈ S ∧ (mlookup M f s).isSome then (mlookup M f s).map roundCell
      else mlookup m0 f s := by
  induction S generalizing m0 with
  | nil => simp [bundlesFold, bundlesFromMatrix]
  | cons s0 rest ih =>
      rw [bundlesFromMatrix_cons, bundlesFold_cons_mk, ih,
        mlookup_applyState M hM s0 m0 f s]
      by_cases hs : s = s0
      · subst hs
        by_cases hsome : (mlookup M f s).isSome
        · simp [hsome, List.mem_cons]
        · simp [hsome]
      · simp only [List.mem_cons]
        by_cases hmem : s ∈ rest
        · simp [hs, hmem]
        · simp [hs, hmem]

/-- **C1, counterexample**: the one-cell matrix `{f: {s: {mode: hidden,
required: true}}}` contains no readonly cell, so the claim's exception does
not apply and its "in particular" clause demands exact restoration over
`S = ["s"]`; the actual round trip loses `required` (a hidden cell with
`required = true` is as inexpressible in bundle form as a readonly one). -/
theorem codec_roundtrip_claim_counterexample :
    (([("f", [("s", (⟨CellMode.hidden, true⟩ : FieldCell))])] : BehaviorMatrixValue).all
        fun p => p.2.all fun q => !decide (q.2.mode = CellMode.readonly)) = true
    ∧ mlookup [("f", [("s", ⟨CellMode.hidden, true⟩)])] "f" "s" =
        some ⟨CellMode.hidden, true⟩
    ∧ mlookup (matrixFromBundles (bundlesFromMatrix
        [("f", [("s", ⟨CellMode.hidden, true⟩)])] ["s"])) "f" "s" =
        some ⟨CellMode.hidden, false⟩ := by
  decide

/-- **C1 (amended)**: over a matrix with no duplicate field keys (every JS
object), the round trip `matrixFromBundles (bundlesFromMatrix M S)`
restores, for every pair whose state is in `S`, a cell with the same mode,
and the same `required` except that any cell with `mode ≠ editable`
(readonly or hidden) and `required = true` round-trips to
`required = false`; in particular, when every cell of `M` is editable or
not required, the round trip restores exactly `M` restricted to `S`. -/
theorem codec_roundtrip_amended (M : BehaviorMatrixValue) (S : List String)
    (hM : (keysOf M).Nodup) :
    (∀ f s, mlookup (matrixFromBundles (bundlesFromMatrix M S)) f s =
        if s ∈ S then (mlookup M f s).map roundCell else none)
    ∧ ((M.all fun p => p.2.all fun q =>
          decide (q.2.mode = CellMode.editable) || !q.2.required) = true →
        ∀ f s, mlookup (matrixFromBundles (bundlesFromMatrix M S)) f s =
          if s ∈ S then mlookup M f s else none) := by
  have hmain : ∀ f s, mlookup (matrixFromBundles (bundlesFromMatrix M S)) f s =
      if s ∈ S then (mlookup M f s).map roundCell else none := by
    intro f s
    rw [matrixFromBundles_eq_bundlesFold, mlookup_bundlesFold M hM S [] f s]
    have hnil : mlookup [] f s = none := rfl
    by_cases hs : s ∈ S
    · cases hsome : mlookup M f s with
      | none => simp [hs, hsome, hnil]
      | some c => simp [hs, hsome]
    · simp [hs, hnil]
  refine ⟨hmain, ?_⟩
  intro hall f s
  rw [hmain f s]
  by_cases hs : s ∈ S
  · simp only [hs, if_true]
    cases hc : mlookup M f s with
    | none => rfl
    | some c =>
        have hcell : roundCell c = c := by
          have hc' := hc
          unfold mlookup at hc'
          cases hrow : alookup M f with
          | none => rw [hrow] at hc'; simp at hc'
          | some row =>
              rw [hrow] at hc'
              have hm1 : (f, row) ∈ M := alookup_mem _ _ _ hrow
              have hm2 : (s, c) ∈ row := alookup_mem _ _ _ hc'
              have h1 := (List.all_eq_true.mp hall) (f, row) hm1
              have h2 := (List.all_eq_true.mp h1) (s, c) hm2
              simp only [Bool.or_eq_true, decide_eq_true_eq, Bool.not_eq_true'] at h2
              exact roundCell_eq_self c h2
        simp [hcell]
  · simp [hs]

/-- A well-formed one-cell editable matrix for the C1 witness. -/
def rtMatrix : BehaviorMatrixValue := [("a", [("entry", ⟨CellMode.editable, true⟩)])]

/-- Witness for C1 (amended) at `rtMatrix` over `S = ["entry"]`. -/
theorem codec_roundtrip_amended_witness :
    mlookup (matrixFromBundles (bundlesFromMatrix rtMatrix ["entry"])) "a" "entry" =
      (if "entry" ∈ ["entry"] then (mlookup rtMatrix "a" "entry").map roundCell else none)
    ∧ mlookup (matrixFromBundles (bundlesFromMatrix rtMatrix ["entry"])) "a" "entry" =
      (if "entry" ∈ ["entry"] then mlookup rtMatrix "a" "entry" else none) :=
  ⟨(codec_roundtrip_amended rtMatrix ["entry"] (by decide)).1 "a" "entry",
   (codec_roundtrip_amended rtMatrix ["entry"] (by decide)).2 (by decide) "a" "entry"⟩

theorem stateRows_fields (M : BehaviorMatrixValue) (s : String) :
    (stateRows M s).1.map TaskFieldBehavior.field_name =
      (M.filter fun p => (alookup p.2 s).isSome).map Prod.fst := by
  induction M with
  | nil => rfl
  | cons p rest ih =>
      obtain ⟨k, row⟩ := p
      rw [stateRows_cons]
      cases hcell : alookup row s with
      | none => simpa [List.filter_cons, hcell] using ih
      | some cell =>
          have hfn : (cellToRow k cell).field_name = k := rfl
          simpa [List.filter_cons, hcell, hfn] using ih

theorem stateRows_flag (M : BehaviorMatrixValue) (s : String) :
    (stateRows M s).2 =
      (stateRows M s).1.any fun r => decide (r.action_context = ActionContext.update) := by
  induction M with
  | nil => rfl
  | cons p rest ih =>
      obtain ⟨k, row⟩ := p
      rw [stateRows_cons]
      cases hcell : alookup row s with
      | none => exact ih
      | some cell =>
          simp only [List.any_cons]
          rw [← ih]
          have : decide ((cellToRow k cell).action_context = ActionContext.update) =
              decide (cell.mode = CellMode.editable) := by
            by_cases hm : cell.mode = CellMode.editable
            · simp [cellToRow, hm]
            · simp [cellToRow, hm]
          rw [this]

/-- **C9**: forward codec shape. `bundlesFromMatrix M S` produces one
bundle per state of `S`, in order; each bundle's rows cover exactly the
matrix fields that have a cell for that state, in matrix order (no hidden
row is synthesized for a missing cell); and the bundle action is `update`
iff some row derives from an editable cell (equivalently, has
`action_context = update`), else `view`. -/
theorem bundlesFromMatrix_shape (M : BehaviorMatrixValue) (S : List String) :
    (bundlesFromMatrix M S).map BehaviorBundle.state = S
    ∧ (∀ b ∈ bundlesFromMatrix M S,
        b.rows.map TaskFieldBehavior.field_name =
          (M.filter fun p => (alookup p.2 b.state).isSome).map Prod.fst)
    ∧ (∀ b ∈ bundlesFromMatrix M S,
        b.action =
          if b.rows.any (fun r => decide (r.action_context = ActionContext.update))
          then ActionContext.update else ActionContext.view) := by
  refine ⟨?_, ?_, ?_⟩
  · induction S with
    | nil => rfl
    | cons s0 rest ih =>
        rw [bundlesFromMatrix_cons, List.map_cons, ih]
  · intro b hb
    obtain ⟨st, hst, rfl⟩ := List.mem_map.1 hb
    exact stateRows_fields M st
  · intro b hb
    obtain ⟨st, hst, rfl⟩ := List.mem_map.1 hb
    simp only
    rw [← stateRows_flag M st]

/-- Witness for C9 at a two-field matrix over two states, instantiating the
row-shape and action clauses at the first produced bundle. -/
theorem bundlesFromMatrix_shape_witness :
    (bundlesFromMatrix [("a", [("s1", ⟨CellMode.editable, true⟩)]), ("b", [])]
        ["s1", "s2"]).map BehaviorBundle.state = ["s1", "s2"]
    ∧ (⟨"s1", ActionContext.update,
          [⟨"a", ActionContext.update, some true, some true⟩]⟩ : BehaviorBundle).rows.map
            TaskFieldBehavior.field_name =
        (([("a", [("s1", ⟨CellMode.editable, true⟩)]), ("b", [])] : BehaviorMatrixValue).filter
            fun p => (alookup p.2 "s1").isSome).map Prod.fst
    ∧ (⟨"s1", ActionContext.update,
          [⟨"a", ActionContext.update, some true, some true⟩]⟩ : BehaviorBundle).action =
        (if (⟨"s1", ActionContext.update,
              [⟨"a", ActionContext.update, some true, some true⟩]⟩ : BehaviorBundle).rows.any
              (fun r => decide (r.action_context = ActionContext.update))
         then ActionContext.update else ActionContext.view) :=
  ⟨(bundlesFromMatrix_shape [("a", [("s1", ⟨CellMode.editable, true⟩)]), ("b", [])]
      ["s1", "s2"]).1,
   (bundlesFromMatrix_shape [("a", [("s1", ⟨CellMode.editable, true⟩)]), ("b", [])]
      ["s1", "s2"]).2.1 _ (by decide),
   (bundlesFromMatrix_shape [("a", [("s1", ⟨CellMode.editable, true⟩)]), ("b", [])]
      ["s1", "s2"]).2.2 _ (by decide)⟩

/-! ## Matrix completion and overlay (`src/BehaviorMatrix.tsx`, `src/unnamed/part_001`) -/

/-- `DEFAULT_CELL` from `BehaviorMatrix.tsx`: `{ mode: 'hidden', required: false }`. -/
def DEFAULT_CELL : FieldCell := ⟨CellMode.hidden, false⟩

/-- One `out[fk][st] = out[fk][st] || { ...DEFAULT_CELL }` step of
`ensureAllCells`: insert the default cell only when the slot is absent. -/
def ensureCell (row : StateRow) (st : String) : StateRow :=
  match alookup row st with
  | some _ => row
  | none => aset row st DEFAULT_CELL

/-- The inner state loop of `ensureAllCells` for one field row. -/
def ensureRow (row : StateRow) (states : List String) : StateRow :=
  states.foldl ensureCell row

/-- One `out[fk] = out[fk] || {}` plus the inner state loop. -/
def ensureField (m : BehaviorMatrixValue) (states : List String) (fk : String) :
    BehaviorMatrixValue :=
  aset m fk (ensureRow ((alookup m fk).getD []) states)

/-- `ensureAllCells` from `BehaviorMatrix.tsx`: complete the matrix with
default cells at every `fieldKeys × states` slot, never overwriting. (The
JS deep clone of the input is identity in this pure model.) -/
def ensureAllCells (matrix : BehaviorMatrixValue) (fieldKeys states : List String) :
    BehaviorMatrixValue :=
  fieldKeys.foldl (fun out fk => ensureField out states fk) matrix

theorem alookup_ensureRow (row : StateRow) (states : List String) (st : String) :
    alookup (ensureRow row states) st =
      match alookup row st with
      | some c => some c
      | none => if st ∈ states then some DEFAULT_CELL else none := by
  induction states generalizing row with
  | nil =>
      cases h : alookup row st <;> simp [ensureRow, h]
  | cons s0 rest ih =>
      have hstep : ensureRow row (s0 :: rest) = ensureRow (ensureCell row s0) rest := rfl
      rw [hstep, ih]
      cases hc : alookup row s0 with
      | some c0 =>
          have hcell : ensureCell row s0 = row := by simp [ensureCell, hc]
          rw [hcell]
          by_cases hst : st = s0
          · subst hst
            simp [hc]
          · cases h : alookup row st <;> simp [h, List.mem_cons, hst]
      | none =>
          have hcell : ensureCell row s0 = aset row s0 DEFAULT_CELL := by
            simp [ensureCell, hc]
          rw [hcell]
          by_cases hst : st = s0
          · subst hst
            rw [alookup_aset_self]
            simp [hc, List.mem_cons]
          · rw [alookup_aset_ne _ _ _ _ hst]
            cases h : alookup row st <;> simp [h, List.mem_cons, hst]

theorem ensureRow_id (row : StateRow) (states : List String)
    (h : ∀ st ∈ states, (alookup row st).isSome) :
    ensureRow row states = row := by
  induction states with
  | nil => rfl
  | cons s0 rest ih =>
      have h0 := h s0 (List.mem_cons_self s0 rest)
      have hcell : ensureCell row s0 = row := by
        cases hc : alookup row s0 with
        | some _ => simp [ensureCell, hc]
        | none => rw [hc] at h0; simp at h0
      have hstep : ensureRow row (s0 :: rest) = ensureRow (ensureCell row s0) rest := rfl
      rw [hstep, hcell]
      exact ih fun st hst => h st (List.mem_cons_of_mem _ hst)

theorem ensureRow_idem (row : StateRow) (states : List String) :
    ensureRow (ensureRow row states) states = ensureRow row states := by
  apply ensureRow_id
  intro st hst
  rw [alookup_ensureRow]
  cases h : alookup row st <;> simp [h, hst]

theorem alookup_ensureAllCells (m : BehaviorMatrixValue) (F S : List String)
    (f : String) :
    alookup (ensureAllCells m F S) f =
      if f ∈ F then some (ensureRow ((alookup m f).getD []) S) else alookup m f := by
  induction F generalizing m with
  | nil => simp [ensureAllCells]
  | cons fk rest ih =>
      have hstep : ensureAllCells m (fk :: rest) S =
          ensureAllCells (ensureField m S fk) rest S := rfl
      rw [hstep, ih]
      by_cases hf : f = fk
      · subst hf
        have h1 : alookup (ensureField m S f) f =
            some (ensureRow ((alookup m f).getD []) S) := by
          unfold ensureField
          exact alookup_aset_self ..
        by_cases hmem : f ∈ rest
        · simp only [hmem, if_true, h1, Option.getD_some, List.mem_cons, true_or]
          rw [ensureRow_idem]
        · simp [hmem, h1, List.mem_cons]
      · have h2 : alookup (ensureField m S fk) f = alookup m f := by
          unfold ensureField
          exact alookup_aset_ne _ _ _ _ hf
        rw [h2]
        simp [List.mem_cons, hf]

theorem mlookup_ensureAllCells (m : BehaviorMatrixValue) (F S : List String)
    (f s : String) :
    mlookup (ensureAllCells m F S) f s =
      match mlookup m f s with
      | some c => some c
      | none => if f ∈ F ∧ s ∈ S then some DEFAULT_CELL else none := by
  unfold mlookup
  rw [alookup_ensureAllCells]
  by_cases hf : f ∈ F
  · simp only [hf, if_true, true_and]
    rw [alookup_ensureRow]
    cases hrow : alookup m f with
    | some row => simp
    | none => simp [alookup]
  · simp only [hf, if_false, false_and]
    cases hrow : alookup m f with
    | some row => cases h : alookup row s <;> simp [h]
    | none => simp

/-- **C5**: completion postcondition and frame. At every pair in
`F × S`, `ensureAllCells M F S` holds the original cell when present and
`{mode: hidden, required: false}` otherwise; and every cell already present
in `M` — at any pair, inside or outside `F × S` — appears unchanged. -/
theorem ensureAllCells_complete_and_frame (M : BehaviorMatrixValue)
    (F S : List String) (f s : String) :
    (f ∈ F → s ∈ S →
      mlookup (ensureAllCells M F S) f s = some ((mlookup M f s).getD DEFAULT_CELL))
    ∧ (∀ c, mlookup M f s = some c → mlookup (ensureAllCells M F S) f s = some c) := by
  constructor
  · intro hf hs
    rw [mlookup_ensureAllCells]
    cases h : mlookup M f s with
    | some c => simp
    | none => simp [hf, hs]
  · intro c hc
    rw [mlookup_ensureAllCells, hc]

/-- Witness for C5: the fresh slot `("x", "s")` gets the default cell, and
the orphan cell at `("y", "t")` (outside `F × S`) is preserved. -/
theorem ensureAllCells_complete_and_frame_witness :
    mlookup (ensureAllCells [("y", [("t", ⟨CellMode.readonly, true⟩)])] ["x"] ["s"]) "x" "s" =
      some ((mlookup [("y", [("t", ⟨CellMode.readonly, true⟩)])] "x" "s").getD DEFAULT_CELL)
    ∧ mlookup (ensureAllCells [("y", [("t", ⟨CellMode.readonly, true⟩)])] ["x"] ["s"]) "y" "t" =
      some ⟨CellMode.readonly, true⟩ :=
  ⟨(ensureAllCells_complete_and_frame [("y", [("t", ⟨CellMode.readonly, true⟩)])]
      ["x"] ["s"] "x" "s").1 (by decide) (by decide),
   (ensureAllCells_complete_and_frame [("y", [("t", ⟨CellMode.readonly, true⟩)])]
      ["x"] ["s"] "y" "t").2 ⟨CellMode.readonly, true⟩ (by decide)⟩

theorem ensureAllCells_no_op (m : BehaviorMatrixValue) (F S : List String)
    (h : ∀ fk ∈ F, ∃ row, alookup m fk = some row ∧ ensureRow row S = row) :
    ensureAllCells m F S = m := by
  induction F with
  | nil => rfl
  | cons fk rest ih =>
      obtain ⟨row, hrow, hid⟩ := h fk (List.mem_cons_self fk rest)
      have hfield : ensureField m S fk = m := by
        unfold ensureField
        rw [hrow, Option.getD_some, hid]
        exact aset_eq_of_alookup _ _ _ hrow
      have hstep : ensureAllCells m (fk :: rest) S =
          ensureAllCells (ensureField m S fk) rest S := rfl
      rw [hstep, hfield]
      exact ih fun fk' hfk' => h fk' (List.mem_cons_of_mem _ hfk')

/-- **C6**: completion is idempotent: running `ensureAllCells` twice with
the same field keys and states is the same as running it once — and this
holds structurally (same entries in the same insertion order), not merely
up to lookup. -/
theorem ensureAllCells_idempotent (M : BehaviorMatrixValue) (F S : List String) :
    ensureAllCells (ensureAllCells M F S) F S = ensureAllCells M F S := by
  apply ensureAllCells_no_op
  intro fk hfk
  refine ⟨ensureRow ((alookup M fk).getD []) S, ?_, ensureRow_idem _ _⟩
  rw [alookup_ensureAllCells]
  simp [hfk]

/-- The inner state loop of `overlayMatrixSourceWins` for one source field:
`out[fk][st] = source[fk][st]` for every state key of the source row. -/
def overlayRow (row srow : StateRow) : StateRow :=
  srow.foldl (fun r p => aset r p.1 p.2) row

/-- One `out[fk] = out[fk] || {}` plus the inner state loop of
`overlayMatrixSourceWins`. -/
def overlayField (out : BehaviorMatrixValue) (p : String × StateRow) :
    BehaviorMatrixValue :=
  aset out p.1 (overlayRow ((alookup out p.1).getD []) p.2)

/-- `overlayMatrixSourceWins` from `BehaviorMatrix.tsx`: deep-overlay
`source` into `target`, source cell wins at every pair it defines. -/
def overlayMatrixSourceWins (target source : BehaviorMatrixValue) :
    BehaviorMatrixValue :=
  source.foldl overlayField target

/-- Well-formedness every JS object satisfies by construction: no duplicate
field keys, and no duplicate state keys inside any row. -/
def MatrixWF (m : BehaviorMatrixValue) : Prop :=
  (keysOf m).Nodup ∧ ∀ p ∈ m, (keysOf p.2).Nodup

theorem alookup_overlayRow (row srow : StateRow) (st : String)
    (h : (keysOf srow).Nodup) :
    alookup (overlayRow row srow) st =
      match alookup srow st with
      | some c => some c
      | none => alookup row st := by
  induction srow generalizing row with
  | nil => simp [overlayRow, alookup]
  | cons p rest ih =>
      obtain ⟨s0, c0⟩ := p
      rw [keysOf_cons, List.nodup_cons] at h
      have hstep : overlayRow row ((s0, c0) :: rest) = overlayRow (aset row s0 c0) rest := rfl
      rw [hstep, ih _ h.2]
      by_cases hst : st = s0
      · subst hst
        rw [alookup_none_of_not_mem_keys rest st h.1, alookup_aset_self]
        simp [alookup]
      · rw [alookup_aset_ne _ _ _ _ hst]
        have hne : ¬ (s0 = st) := fun hc => hst hc.symm
        have : alookup ((s0, c0) :: rest) st = alookup rest st := by
          simp [alookup, hne]
        rw [this]

theorem mlookup_overlay_not_mem (src : List (String × StateRow))
    (t : BehaviorMatrixValue) (f s : String) (h : f ∉ keysOf src) :
    mlookup (src.foldl overlayField t) f s = mlookup t f s := by
  induction src generalizing t with
  | nil => rfl
  | cons p rest ih =>
      obtain ⟨fk, srow⟩ := p
      rw [keysOf_cons, List.mem_cons, not_or] at h
      have hne : f ≠ fk := h.1
      have hstep : ((fk, srow) :: rest).foldl overlayField t =
          rest.foldl overlayField (overlayField t (fk, srow)) := rfl
      rw [hstep, ih _ h.2]
      unfold mlookup overlayField
      rw [alookup_aset_ne _ _ _ _ hne]

theorem mlookup_overlay (target source : BehaviorMatrixValue)
    (h : MatrixWF source) (f s : String) :
    mlookup (overlayMatrixSourceWins target source) f s =
      match mlookup source f s with
      | some c => some c
      | none => mlookup target f s := by
  obtain ⟨houter, hinner⟩ := h
  induction source generalizing target with
  | nil => simp [overlayMatrixSourceWins, mlookup, alookup]
  | cons p rest ih =>
      obtain ⟨fk, srow⟩ := p
      rw [keysOf_cons, List.nodup_cons] at houter
      have hsrow : (keysOf srow).Nodup := hinner (fk, srow) (List.mem_cons_self _ _)
      have hstep : overlayMatrixSourceWins target ((fk, srow) :: rest) =
          rest.foldl overlayField (overlayField target (fk, srow)) := rfl
      by_cases hf : f = fk
      · subst hf
        rw [hstep, mlookup_overlay_not_mem rest _ f s houter.1]
        have h1 : alookup (overlayField target (f, srow)) f =
            some (overlayRow ((alookup target f).getD []) srow) := by
          unfold overlayField
          exact alookup_aset_self ..
        have h2 : alookup ((f, srow) :: rest) f = some srow := by simp [alookup]
        simp only [mlookup, h1, h2]
        rw [alookup_overlayRow _ _ _ hsrow]
        cases hc : alookup srow s with
        | some c => simp
        | none =>
            cases ht : alookup target f with
            | some row => simp [ht]
            | none => simp [ht, alookup]
      · rw [hstep]
        have ih2 := ih (overlayField target (fk, srow)) houter.2
          (fun p hp => hinner p (List.mem_cons_of_mem _ hp))
        rw [show overlayMatrixSourceWins (overlayField target (fk, srow)) rest =
            rest.foldl overlayField (overlayField target (fk, srow)) from rfl] at ih2
        rw [ih2]
        have h3 : mlookup (overlayField target (fk, srow)) f s = mlookup target f s := by
          unfold mlookup overlayField
          rw [alookup_aset_ne _ _ _ _ hf]
        have hne : ¬ (fk = f) := fun hc => hf hc.symm
        have h4 : alookup ((fk, srow) :: rest) f = alookup rest f := by
          simp [alookup, hne]
        rw [h3]
        unfold mlookup
        rw [h4]

/-- **C7**: overlay precedence. At every pair present in `source` the
merged matrix holds exactly the source cell, regardless of what `target`
held there; at every pair `source` does not define, the target cell (or its
absence) is preserved. `source` is assumed well-formed (no duplicate keys),
as every JS object is. -/
theorem overlay_source_wins (target source : BehaviorMatrixValue)
    (h : MatrixWF source) (f s : String) :
    (∀ c, mlookup source f s = some c →
      mlookup (overlayMatrixSourceWins target source) f s = some c)
    ∧ (mlookup source f s = none →
      mlookup (overlayMatrixSourceWins target source) f s = mlookup target f s) := by
  constructor
  · intro c hc
    rw [mlookup_overlay target source h, hc]
  · intro hc
    rw [mlookup_overlay target source h, hc]

/-- Witness for C7: the source cell overrides the conflicting target cell
at `("f", "s")`, while the target-only pair `("g", "t")` is preserved. -/
theorem overlay_source_wins_witness :
    mlookup (overlayMatrixSourceWins
        [("f", [("s", ⟨CellMode.editable, true⟩)]), ("g", [("t", ⟨CellMode.readonly, false⟩)])]
        [("f", [("s", ⟨CellMode.hidden, false⟩)])]) "f" "s" =
      some ⟨CellMode.hidden, false⟩
    ∧ mlookup (overlayMatrixSourceWins
        [("f", [("s", ⟨CellMode.editable, true⟩)]), ("g", [("t", ⟨CellMode.readonly, false⟩)])]
        [("f", [("s", ⟨CellMode.hidden, false⟩)])]) "g" "t" =
      mlookup [("f", [("s", ⟨CellMode.editable, true⟩)]),
        ("g", [("t", ⟨CellMode.readonly, false⟩)])] "g" "t" :=
  ⟨(overlay_source_wins
      [("f", [("s", ⟨CellMode.editable, true⟩)]), ("g", [("t", ⟨CellMode.readonly, false⟩)])]
      [("f", [("s", ⟨CellMode.hidden, false⟩)])]
      ⟨by decide, by decide⟩ "f" "s").1 ⟨CellMode.hidden, false⟩ (by decide),
   (overlay_source_wins
      [("f", [("s", ⟨CellMode.editable, true⟩)]), ("g", [("t", ⟨CellMode.readonly, false⟩)])]
      [("f", [("s", ⟨CellMode.hidden, false⟩)])]
      ⟨by decide, by decide⟩ "g" "t").2 (by decide)⟩

/-! ## Derived read-only resolver (`src/App.tsx`) -/

/-- The `anyEditable` computation of the `readOnly` memo in `src/App.tsx`:
`Object.values(matrix).some(row => row?.[formState]?.mode === 'editable')`. -/
def anyEditableCell (matrix : BehaviorMatrixValue) (formState : String) : Bool :=
  matrix.any fun p =>
    match alookup p.2 formState with
    | some cell => decide (cell.mode = CellMode.editable)
    | none => false

/-- The `readOnly` memo from `src/App.tsx` as a function of its three free
inputs (the spec names it `resolveReadOnly(bundles, matrix, state)`):
`(b?.action === 'view') || (!anyEditable && formState !== 'entry')` where
`b = bundles.find(x => x.state === formState)`. -/
def resolveReadOnly (bundles : List BehaviorBundle) (matrix : BehaviorMatrixValue)
    (formState : String) : Bool :=
  (match bundles.find? (fun x => decide (x.state = formState)) with
   | some b => decide (b.action = ActionContext.view)
   | none => false)
  || (!anyEditableCell matrix formState && decide (formState ≠ "entry"))

theorem noEditable_iff (matrix : BehaviorMatrixValue) (st : String) :
    anyEditableCell matrix st = false ↔
      (∀ p ∈ matrix, ∀ c, alookup p.2 st = some c → c.mode ≠ CellMode.editable) := by
  constructor
  · intro h p hp c hc hmode
    have hpred : (match alookup p.2 st with
        | some cell => decide (cell.mode = CellMode.editable)
        | none => false) = true := by
      rw [hc]
      simp [hmode]
    have hany : anyEditableCell matrix st = true :=
      List.any_eq_true.mpr ⟨p, hp, hpred⟩
    rw [h] at hany
    exact Bool.false_ne_true hany
  · intro h
    cases hval : anyEditableCell matrix st with
    | false => rfl
    | true =>
        obtain ⟨p, hp, hpred⟩ := List.any_eq_true.mp hval
        cases hc : alookup p.2 st with
        | none => rw [hc] at hpred; exact absurd hpred (by simp)
        | some c =>
            rw [hc] at hpred
            simp only [decide_eq_true_eq] at hpred
            exact absurd hpred (h p hp c hc)

/-- **C4**: the resolved read-only flag is true exactly when the resolved
bundle's action is `view`, or no matrix cell for the state is editable and
the state is not `"entry"`; with an empty bundle list and empty matrix,
state `"entry"` resolves editable and state `"approve"` resolves
read-only. -/
theorem resolveReadOnly_spec :
    (∀ (bundles : List BehaviorBundle) (matrix : BehaviorMatrixValue) (state : String),
      resolveReadOnly bundles matrix state = true ↔
        ((∃ b, bundles.find? (fun x => decide (x.state = state)) = some b ∧
            b.action = ActionContext.view)
         ∨ ((∀ p ∈ matrix, ∀ c, alookup p.2 state = some c → c.mode ≠ CellMode.editable)
            ∧ state ≠ "entry")))
    ∧ resolveReadOnly [] [] "entry" = false
    ∧ resolveReadOnly [] [] "approve" = true := by
  refine ⟨?_, by decide, by decide⟩
  intro bundles matrix state
  constructor
  · intro h
    unfold resolveReadOnly at h
    rw [Bool.or_eq_true] at h
    rcases h with h | h
    · cases hb : bundles.find? (fun x => decide (x.state = state)) with
      | none => rw [hb] at h; exact absurd h (by simp)
      | some b =>
          rw [hb] at h
          simp only [decide_eq_true_eq] at h
          exact Or.inl ⟨b, rfl, h⟩
    · rw [Bool.and_eq_true] at h
      refine Or.inr ⟨(noEditable_iff matrix state).mp ?_, ?_⟩
      · have h1 := h.1
        rwa [Bool.not_eq_true'] at h1
      · have h2 := h.2
        simpa using h2
  · intro h
    unfold resolveReadOnly
    rcases h with ⟨b, hb, hact⟩ | ⟨hno, hst⟩
    · rw [hb]
      simp [hact]
    · rw [(noEditable_iff matrix state).mpr hno]
      simp [hst]

/-! ## Form-js schema trees (`src/core/enrich.ts`, `src/core/schema.ts`) -/

/-- The `validate` object of a schema node; only its `required` property is
modelled — the only one the core reads or writes (spec §6). -/
structure Validate where
  required : Option Bool
deriving DecidableEq, Repr

/-- A form-js schema component node, with the fields the core reads or
writes (spec §6): optional `key`, `type`, `label`, `text`, `disabled`,
`validate`, and a `components` containment list. A JS node without a
`components` array is modelled with `components = []`; the core treats the
two identically (it only maps/traverses the array when present and never
distinguishes a missing array from an empty one observably). -/
inductive Comp where
  | mk (key : Option String) (type : Option String) (label : Option String)
       (text : Option String) (disabled : Option Bool) (validate : Option Validate)
       (components : List Comp)

def Comp.key : Comp → Option String
  | .mk k _ _ _ _ _ _ => k

def Comp.type : Comp → Option String
  | .mk _ t _ _ _ _ _ => t

def Comp.label : Comp → Option String
  | .mk _ _ l _ _ _ _ => l

def Comp.text : Comp → Option String
  | .mk _ _ _ t _ _ _ => t

def Comp.disabled : Comp → Option Bool
  | .mk _ _ _ _ d _ _ => d

def Comp.validate : Comp → Option Validate
  | .mk _ _ _ _ _ v _ => v

def Comp.components : Comp → List Comp
  | .mk _ _ _ _ _ _ cs => cs

/-- `toRule` from `src/core/enrich.ts`: `visible:false → hidden`;
`visible:true` and `action_context` update/create `→ editable`; otherwise
readonly; `required = mode === 'editable' ? !!row.required : false`. -/
def toRule (row : TaskFieldBehavior) : FieldCell :=
  let mode : CellMode :=
    if row.visible = some false then CellMode.hidden
    else if row.action_context = ActionContext.update ∨
            row.action_context = ActionContext.create then CellMode.editable
    else CellMode.readonly
  { mode := mode
    required := if mode = CellMode.editable then row.required.getD false else false }

/-- The rules `Map` built by `enrichFormSchemaForState`:
`rules.set(r.field_name, toRule(r))` over the bundle rows in order (a later
row for the same field overwrites an earlier one, as `Map.set` does). -/
def rulesOf (rows : List TaskFieldBehavior) : List (String × FieldCell) :=
  rows.foldl (fun m r => aset m r.field_name (toRule r)) []

/-- JS `key ? rules.get(key) : undefined`: the empty string is falsy, so a
node whose key is `""` never receives a rule. -/
def keyRule (rules : List (String × FieldCell)) (key : Option String) : Option FieldCell :=
  match key with
  | some k => if k = "" then none else alookup rules k
  | none => none

mutual

/-- The per-node body of `transform` in `enrichFormSchemaForState`:
`none` when the node's rule is hidden (the node and its whole subtree are
dropped before any recursion); otherwise the clone with transformed
children and, when a rule applies, the readonly flags (`disabled = true`,
`validate.required = false` when a validate object exists) or the editable
flags (`disabled = false`, a validate object created if needed with
`required` set from the rule). -/
def transformComp (rules : List (String × FieldCell)) : Comp → Option Comp
  | Comp.mk key type label text disabled validate components =>
      match keyRule rules key with
      | some r =>
          if r.mode = CellMode.hidden then none
          else if r.mode = CellMode.readonly then
            some (Comp.mk key type label text (some true)
              (validate.map fun v => { v with required := some false })
              (transformComps rules components))
          else
            some (Comp.mk key type label text (some false)
              (some { required := some r.required })
              (transformComps rules components))
      | none =>
          some (Comp.mk key type label text disabled validate
            (transformComps rules components))

/-- The children loop of `transform`: dropped nodes contribute nothing to
the parent's output list. -/
def transformComps (rules : List (String × FieldCell)) : List Comp → List Comp
  | [] => []
  | c :: rest =>
      match transformComp rules c with
      | some nn => nn :: transformComps rules rest
      | none => transformComps rules rest

end

/-- `enrichFormSchemaForState` from `src/core/enrich.ts`: build the rules
map from the bundle rows, then transform the root's `components` tree; the
root's own properties are untouched. -/
def enrichFormSchemaForState (schema : Comp) (bundle : BehaviorBundle) : Comp :=
  match schema with
  | Comp.mk key type label text disabled validate components =>
      Comp.mk key type label text disabled validate
        (transformComps (rulesOf bundle.rows) components)

mutual

/-- Whether a node or any descendant (at any depth) carries `key = k`. -/
def compContainsKey (k : String) : Comp → Bool
  | Comp.mk key _ _ _ _ _ components =>
      decide (key = some k) || compsContainKey k components

def compsContainKey (k : String) : List Comp → Bool
  | [] => false
  | c :: rest => compContainsKey k c || compsContainKey k rest

end

mutual

/-- `p` holds at a node and at every descendant. -/
def allNodesComp (p : Comp → Bool) : Comp → Bool
  | Comp.mk key type label text disabled validate components =>
      p (Comp.mk key type label text disabled validate components)
        && allNodes p components

/-- `p` holds at every node of the forest, at any depth. -/
def allNodes (p : Comp → Bool) : List Comp → Bool
  | [] => true
  | c :: rest => allNodesComp p c && allNodes p rest

end

mutual

theorem transformComp_no_hidden (rules : List (String × FieldCell)) (k : String)
    (r : FieldCell) (hk : ¬ k = "") (hr : alookup rules k = some r)
    (hm : r.mode = CellMode.hidden) :
    ∀ (c nn : Comp), transformComp rules c = some nn → compContainsKey k nn = false
  | Comp.mk key type label text disabled validate components, nn, h => by
      have hrec := transformComps_no_hidden rules k r hk hr hm components
      rw [transformComp] at h
      cases hkr : keyRule rules key with
      | some r2 =>
          simp only [hkr] at h
          by_cases hh : r2.mode = CellMode.hidden
          · rw [if_pos hh] at h
            exact absurd h (by simp)
          · have hkey : decide (key = some k) = false := by
              simp only [decide_eq_false_iff_not]
              intro hkk
              rw [hkk, keyRule, if_neg hk, hr] at hkr
              have hrr : r = r2 := Option.some.inj hkr
              exact hh (hrr ▸ hm)
            by_cases hro : r2.mode = CellMode.readonly
            · rw [if_neg hh, if_pos hro] at h
              obtain rfl := Option.some.inj h
              simp [compContainsKey, hkey, hrec]
            · rw [if_neg hh, if_neg hro] at h
              obtain rfl := Option.some.inj h
              simp [compContainsKey, hkey, hrec]
      | none =>
          simp only [hkr] at h
          obtain rfl := Option.some.inj h
          have hkey : decide (key = some k) = false := by
            simp only [decide_eq_false_iff_not]
            intro hkk
            rw [hkk, keyRule, if_neg hk, hr] at hkr
            exact Option.noConfusion hkr
          simp [compContainsKey, hkey, hrec]

theorem transformComps_no_hidden (rules : List (String × FieldCell)) (k : String)
    (r : FieldCell) (hk : ¬ k = "") (hr : alookup rules k = some r)
    (hm : r.mode = CellMode.hidden) :
    ∀ (cs : List Comp), compsContainKey k (transformComps rules cs) = false
  | [] => by simp [transformComps, compsContainKey]
  | c :: rest => by
      have hrest := transformComps_no_hidden rules k r hk hr hm rest
      rw [transformComps]
      cases hc : transformComp rules c with
      | none => simpa using hrest
      | some nn =>
          have hcomp := transformComp_no_hidden rules k r hk hr hm c nn hc
          simp [compsContainKey, hcomp, hrest]

end

/-- **C2**: enrichment deletes hidden fields everywhere. If the bundle's
rules map a (non-empty — JS truthy) field name `k` to a hidden rule, the
enriched tree contains no node with `key = k` at any depth; moreover a node
carrying such a key is dropped together with its entire subtree, before any
recursion into it. -/
theorem enrich_drops_hidden (schema : Comp) (bundle : BehaviorBundle)
    (k : String) (r : FieldCell) (hk : ¬ k = "")
    (hr : alookup (rulesOf bundle.rows) k = some r)
    (hm : r.mode = CellMode.hidden) :
    compsContainKey k (enrichFormSchemaForState schema bundle).components = false
    ∧ ∀ (c : Comp) (rest : List Comp), c.key = some k →
        transformComps (rulesOf bundle.rows) (c :: rest) =
          transformComps (rulesOf bundle.rows) rest := by
  constructor
  · cases schema with
    | mk key type label text disabled validate components =>
        exact transformComps_no_hidden (rulesOf bundle.rows) k r hk hr hm components
  · intro c rest hkey
    cases c with
    | mk key type label text disabled validate components =>
        have hkey2 : key = some k := hkey
        have hdrop : transformComp (rulesOf bundle.rows)
            (Comp.mk key type label text disabled validate components) = none := by
          simp [transformComp, hkey2, keyRule, hk, hr, hm]
        rw [transformComps, hdrop]

/-- The bundle hiding field `"x"` used by the C2 witness. -/
def hideXBundle : BehaviorBundle :=
  ⟨"review", ActionContext.view, [⟨"x", ActionContext.view, some false, none⟩]⟩

/-- A schema whose `"x"` node sits two containers deep and itself contains
a child, used by the C2 witness. -/
def nestedXSchema : Comp :=
  Comp.mk none (some "default") none none none none
    [Comp.mk none (some "group") none none none none
      [Comp.mk (some "x") (some "group") none none none none
        [Comp.mk (some "y") (some "textfield") none none none none []]]]

/-- Witness for C2 at `nestedXSchema` and `hideXBundle`: no `"x"` node
survives anywhere, and a top-level `"x"` node is dropped with its subtree. -/
theorem enrich_drops_hidden_witness :
    compsContainKey "x" (enrichFormSchemaForState nestedXSchema hideXBundle).components = false
    ∧ transformComps (rulesOf hideXBundle.rows)
        (Comp.mk (some "x") (some "group") none none none none
          [Comp.mk (some "y") (some "textfield") none none none none []] :: []) =
      transformComps (rulesOf hideXBundle.rows) [] :=
  ⟨(enrich_drops_hidden nestedXSchema hideXBundle "x" ⟨CellMode.hidden, false⟩
      (by decide) (by decide) rfl).1,
   (enrich_drops_hidden nestedXSchema hideXBundle "x" ⟨CellMode.hidden, false⟩
      (by decide) (by decide) rfl).2
     (Comp.mk (some "x") (some "group") none none none none
       [Comp.mk (some "y") (some "textfield") none none none none []]) [] rfl⟩

/-- The C3 post-condition at one node: if the node's (truthy) key has a
rule, then under an editable rule `disabled = false` and `validate` exists
with `required` equal to the rule's required flag; under a readonly rule
`disabled = true` and, when the node has a validate object, its `required`
is `false`. Nodes without a rule, with a falsy key, or under a hidden rule
are unconstrained. -/
def flagOk (rules : List (String × FieldCell)) : Comp → Bool
  | Comp.mk key _ _ _ disabled validate _ =>
      match key with
      | some k =>
          if k = "" then true
          else
            match alookup rules k with
            | some r =>
                match r.mode with
                | CellMode.editable =>
                    decide (disabled = some false) &&
                      decide (validate = some ⟨some r.required⟩)
                | CellMode.readonly =>
                    decide (disabled = some true) &&
                      (match validate with
                       | some v => decide (v.required = some false)
                       | none => true)
                | CellMode.hidden => true
            | none => true
      | none => true

mutual

theorem transformComp_flagOk (rules : List (String × FieldCell)) :
    ∀ (c nn : Comp), transformComp rules c = some nn →
      allNodesComp (flagOk rules) nn = true
  | Comp.mk key type label text disabled validate components, nn, h => by
      have hrec := transformComps_flagOk rules components
      rw [transformComp] at h
      cases hkr : keyRule rules key with
      | some r =>
          simp only [hkr] at h
          by_cases hh : r.mode = CellMode.hidden
          · rw [if_pos hh] at h
            exact absurd h (by simp)
          · obtain ⟨k0, hk0key, hk0ne, hk0look⟩ :
                ∃ k0, key = some k0 ∧ ¬ k0 = "" ∧ alookup rules k0 = some r := by
              cases key with
              | none => rw [keyRule] at hkr; exact absurd hkr (by simp)
              | some k0 =>
                  rw [keyRule] at hkr
                  by_cases hk0 : k0 = ""
                  · rw [if_pos hk0] at hkr
                    exact absurd hkr (by simp)
                  · rw [if_neg hk0] at hkr
                    exact ⟨k0, rfl, hk0, hkr⟩
            by_cases hro : r.mode = CellMode.readonly
            · rw [if_neg hh, if_pos hro] at h
              obtain rfl := Option.some.inj h
              have hflag : flagOk rules (Comp.mk key type label text (some true)
                  (validate.map fun v => { v with required := some false })
                  (transformComps rules components)) = true := by
                subst hk0key
                cases validate with
                | none => simp [flagOk, hk0ne, hk0look, hro]
                | some v => simp [flagOk, hk0ne, hk0look, hro]
              simp [allNodesComp, hflag, hrec]
            · have hed : r.mode = CellMode.editable := by
                cases hmode : r.mode
                · exact absurd hmode hh
                · exact absurd hmode hro
                · rfl
              rw [if_neg hh, if_neg hro] at h
              obtain rfl := Option.some.inj h
              have hflag : flagOk rules (Comp.mk key type label text (some false)
                  (some { required := some r.required })
                  (transformComps rules components)) = true := by
                subst hk0key
                simp [flagOk, hk0ne, hk0look, hed]
              simp [allNodesComp, hflag, hrec]
      | none =>
          simp only [hkr] at h
          obtain rfl := Option.some.inj h
          have hflag : flagOk rules
              (Comp.mk key type label text disabled validate
                (transformComps rules components)) = true := by
            cases key with
            | none => simp [flagOk]
            | some k0 =>
                rw [keyRule] at hkr
                by_cases hk0 : k0 = ""
                · simp [flagOk, hk0]
                · rw [if_neg hk0] at hkr
                  simp [flagOk, hk0, hkr]
          simp [allNodesComp, hflag, hrec]

theorem transformComps_flagOk (rules : List (String × FieldCell)) :
    ∀ (cs : List Comp), allNodes (flagOk rules) (transformComps rules cs) = true
  | [] => by simp [transformComps, allNodes]
  | c :: rest => by
      have hrest := transformComps_flagOk rules rest
      rw [transformComps]
      cases hc : transformComp rules c with
      | none => simpa using hrest
      | some nn =>
          have hcomp := transformComp_flagOk rules c nn hc
          simp [allNodes, hcomp, hrest]

end

/-- **C3**: enrichment flag postcondition. In the enriched tree, every node
whose (truthy) key maps to a rule of the bundle satisfies: under an
editable rule (visible row with `action_context` update/create),
`disabled = false` and a validate object exists with `required` equal to
the row's required flag; under a readonly rule (visible row with
`action_context` view), `disabled = true` and, when the node has a validate
object, its `required` is `false` regardless of the row's required flag. -/
theorem enrich_flag_postcondition (schema : Comp) (bundle : BehaviorBundle) :
    allNodes (flagOk (rulesOf bundle.rows))
      (enrichFormSchemaForState schema bundle).components = true := by
  cases schema with
  | mk key type label text disabled validate components =>
      exact transformComps_flagOk (rulesOf bundle.rows) components

/-- `FieldMeta` from `src/core/schema.ts`: `{ key, label?, type? }` (the
extractor always assigns a label string). -/
structure FieldMeta where
  key : String
  label : String
  type : Option String
deriving DecidableEq, Repr

/-- JS `typeof s === 'string' && s.trim()` as an option: the trimmed string
when it is non-empty (truthy), otherwise nothing. -/
def trimmedNonEmpty : Option String → Option String
  | some s => if s.trim = "" then none else some s.trim
  | none => none

/-- The extractor's label: first non-empty of trimmed `label`, trimmed
`text`, falling back to the key. -/
def metaLabel (label text : Option String) (k : String) : String :=
  ((trimmedNonEmpty label).orElse fun _ => trimmedNonEmpty text).getD k

mutual

/-- `extractFields` from `src/core/schema.ts`: walk the components in
order, threading the accumulator exactly as the JS `acc` parameter. -/
def extractFields : List Comp → List FieldMeta → List FieldMeta
  | [], acc => acc
  | c :: rest, acc => extractFields rest (extractFieldsComp c acc)

/-- The per-node body of `extractFields`: `text`/`button` nodes contribute
nothing themselves but their children are traversed; any other node with a
truthy (non-empty) string key pushes one `FieldMeta`, then its children are
traversed. -/
def extractFieldsComp : Comp → List FieldMeta → List FieldMeta
  | Comp.mk key type label text _ _ components, acc =>
      if type = some "text" ∨ type = some "button" then
        extractFields components acc
      else
        extractFields components
          (match key with
           | some k => if k = "" then acc else acc ++ [⟨k, metaLabel label text k, type⟩]
           | none => acc)

end

mutual

/-- Spec-side restatement of C8: the pre-order list of keys of nodes with a
non-empty string key, text/button nodes skipped but their children
traversed. -/
def specFieldKeys : List Comp → List String
  | [] => []
  | c :: rest => specFieldKeysComp c ++ specFieldKeys rest

def specFieldKeysComp : Comp → List String
  | Comp.mk key type _ _ _ _ components =>
      if type = some "text" ∨ type = some "button" then specFieldKeys components
      else
        (match key with
         | some k => if k = "" then [] else [k]
         | none => []) ++ specFieldKeys components

end

mutual

theorem extractFields_keys :
    ∀ (cs : List Comp) (acc : List FieldMeta),
      (extractFields cs acc).map FieldMeta.key =
        acc.map FieldMeta.key ++ specFieldKeys cs
  | [], acc => by simp [extractFields, specFieldKeys]
  | c :: rest, acc => by
      rw [extractFields, specFieldKeys,
        extractFields_keys rest (extractFieldsComp c acc),
        extractFieldsComp_keys c acc, List.append_assoc]

theorem extractFieldsComp_keys :
    ∀ (c : Comp) (acc : List FieldMeta),
      (extractFieldsComp c acc).map FieldMeta.key =
        acc.map FieldMeta.key ++ specFieldKeysComp c
  | Comp.mk key type label text disabled validate components, acc => by
      simp only [extractFieldsComp.eq_def, specFieldKeysComp.eq_def]
      by_cases htype : type = some "text" ∨ type = some "button"
      · rw [if_pos htype, if_pos htype, extractFields_keys components acc]
      · rw [if_neg htype, if_neg htype]
        cases key with
        | none =>
            simp [extractFields_keys components acc]
        | some k =>
            by_cases hk : k = ""
            · simp [hk, extractFields_keys components acc]
            · simp [hk, extractFields_keys components
                (acc ++ [⟨k, metaLabel label text k, type⟩])]

end

/-- **C8**: the extractor yields one `FieldMeta` per node with a non-empty
string key, in pre-order, except that `text`/`button` nodes never
contribute themselves while their children are still traversed; on the
spec's example schema it yields exactly one field, `key = "a"`. -/
theorem extractFields_skip_rule :
    (∀ (cs : List Comp) (acc : List FieldMeta),
      (extractFields cs acc).map FieldMeta.key =
        acc.map FieldMeta.key ++ specFieldKeys cs)
    ∧ extractFields
        [Comp.mk none (some "text") none (some "hi") none none [],
         Comp.mk none (some "group") none none none none
           [Comp.mk (some "a") (some "textfield") none none none none []]] [] =
      [⟨"a", "a", some "textfield"⟩] := by
  refine ⟨extractFields_keys, ?_⟩
  decide
